import Mathlib

/-!
Shallow embedding of the `minigrep` library (`src/lib.rs`): the
configuration builder `Config::build`, the two line-search functions
`search` and `search_case_insensitive`, and the Rust standard-library
helpers they rely on (`str::lines`, `str::contains`, `str::to_lowercase`).
Strings are modelled as lists of characters; the process environment is
modelled as the optional value of the `IGNORE_CASE` variable, passed in
explicitly.
-/

/-- A Rust string, modelled as its sequence of characters. -/
abbrev Str := List Char

/-- Split a string at every newline character, keeping the (possibly empty)
pieces between them: the helper underlying `str::lines`. -/
def splitOnNl : Str → List Str
  | [] => [[]]
  | c :: rest =>
    if c = '\n' then
      [] :: splitOnNl rest
    else
      match splitOnNl rest with
      | [] => [[c]]
      | p :: ps => (c :: p) :: ps

/-- Drop one trailing carriage return, if present: Rust's `lines` treats
`\r\n` as a single terminator. -/
def stripCr (l : Str) : Str :=
  if l.getLast? = some '\r' then l.dropLast else l

/-- Rust's `str::lines`: split at `\n` (or `\r\n`) terminators; a final
piece that is empty (the string ended with a terminator) is not produced,
and a final unterminated piece is kept verbatim. -/
def rustLines (s : Str) : List Str :=
  let parts := splitOnNl s
  match parts.getLast? with
  | none => []
  | some lastPart =>
      (parts.dropLast.map stripCr) ++ (if lastPart = [] then [] else [lastPart])

/-- Rust's `str::contains` with a string pattern: `q` occurs in `s` as a
contiguous substring. -/
def containsStr (s q : Str) : Bool := decide (q <:+: s)

/-- The Unicode `Cased` property, on the character fragment modelled here:
ASCII letters and the letters of the basic Greek block (capitals
U+0391–U+03A9 less the unassigned U+03A2, small letters U+03B1–U+03C9,
final sigma included). Characters outside the fragment (other scripts,
accented letters) are not modelled. -/
def isCased (c : Char) : Bool :=
  ('a' ≤ c && c ≤ 'z') || ('A' ≤ c && c ≤ 'Z') ||
  (('Α' ≤ c && c ≤ 'Ω') && c.toNat != 0x3A2) || ('α' ≤ c && c ≤ 'ω')

/-- The Unicode `Case_Ignorable` property on the modelled fragment: the
five ASCII characters with the property (apostrophe, full stop, colon,
circumflex accent, grave accent). Combining marks, modifier letters and
the other non-ASCII case-ignorable characters lie outside the fragment. -/
def isCaseIgnorable (c : Char) : Bool :=
  c = '\'' || c = '.' || c = ':' || c = '^' || c = '\x60'

/-- One side of the `Final_Sigma` context test of Rust's
`str::to_lowercase`: skip case-ignorable characters; the sigma borders a
cased character on that side iff the first remaining character is cased. -/
def caseIgnorableThenCased (cs : Str) : Bool :=
  match cs.dropWhile isCaseIgnorable with
  | [] => false
  | c :: _ => isCased c

/-- Rust's `char::to_lowercase` simple mapping on the modelled fragment:
ASCII capitals and Greek capitals move down to their small forms (capital
sigma to `'σ'`; the final form `'ς'` is chosen only by the string-level
rule); every other modelled character maps to itself. -/
def lowerSimple (c : Char) : Char :=
  if ('Α' ≤ c && c ≤ 'Ρ') || ('Σ' ≤ c && c ≤ 'Ω') then Char.ofNat (c.toNat + 32)
  else Char.toLower c

/-- The loop of Rust's `str::to_lowercase`: each capital sigma is mapped
by the `Final_Sigma` rule — `'ς'` when a cased character (ignoring
case-ignorable ones) precedes and none follows, `'σ'` otherwise — and
every other character by its simple lowercase mapping. `prev` is the
already-consumed prefix, nearest character first. -/
def toLowercaseAux (prev : Str) : Str → Str
  | [] => []
  | c :: rest =>
    (if c = 'Σ' then
       if caseIgnorableThenCased prev && !caseIgnorableThenCased rest then 'ς'
       else 'σ'
     else lowerSimple c)
    :: toLowercaseAux (c :: prev) rest

/-- Rust's `str::to_lowercase`, with the context-sensitive `Final_Sigma`
rule, modelled on the ASCII-plus-Greek fragment. -/
def toLowercase (s : Str) : Str := toLowercaseAux [] s

/-- The accumulating loop of `search`: walk the lines, pushing each line
that contains the query onto the results. -/
def searchLoop (query : Str) : List Str → List Str → List Str
  | [], results => results
  | line :: rest, results =>
      if containsStr line query then
        searchLoop query rest (results ++ [line])
      else
        searchLoop query rest results

/-- `search(query, contents)` from `src/lib.rs`: the lines of `contents`
that contain `query`, in order. -/
def search (query contents : Str) : List Str :=
  searchLoop query (rustLines contents) []

/-- The accumulating loop of `search_case_insensitive`: `query` has already
been lowercased; each line is lowercased for the test but pushed verbatim. -/
def sciLoop (query : Str) : List Str → List Str → List Str
  | [], results => results
  | line :: rest, results =>
      if containsStr (toLowercase line) query then
        sciLoop query rest (results ++ [line])
      else
        sciLoop query rest results

/-- `search_case_insensitive(query, contents)` from `src/lib.rs`. -/
def search_case_insensitive (query contents : Str) : List Str :=
  sciLoop (toLowercase query) (rustLines contents) []

/-- The configuration built from the command-line arguments and the
environment, as in `src/lib.rs`. -/
structure Config where
  query : Str
  file_path : Str
  ignore_case : Bool
deriving DecidableEq, Repr

/-- `Config::build` from `src/lib.rs`: fail when fewer than three
arguments are present, otherwise take `args[1]` and `args[2]` and record
whether `IGNORE_CASE` is set. The environment is passed explicitly as the
optional value of that variable. -/
def Config.build (args : List Str) (ignoreCaseVar : Option Str) :
    Except String Config :=
  if h : args.length < 3 then
    .error "not enough arguments"
  else
    .ok { query := args.get ⟨1, by omega⟩,
          file_path := args.get ⟨2, by omega⟩,
          ignore_case := ignoreCaseVar.isSome }

/-- The loop of `search` appends, to its accumulator, the filter of the
remaining lines by containment of the query. -/
theorem searchLoop_eq (query : Str) (ls acc : List Str) :
    searchLoop query ls acc = acc ++ ls.filter (fun l => containsStr l query) := by
  induction ls generalizing acc with
  | nil => simp [searchLoop]
  | cons line rest ih =>
      by_cases h : containsStr line query
      · simp [searchLoop, h, ih]
      · simp [searchLoop, h, ih]

/-- The loop of `search_case_insensitive` appends, to its accumulator, the
filter of the remaining lines by lowercased containment. -/
theorem sciLoop_eq (query : Str) (ls acc : List Str) :
    sciLoop query ls acc =
      acc ++ ls.filter (fun l => containsStr (toLowercase l) query) := by
  induction ls generalizing acc with
  | nil => simp [sciLoop]
  | cons line rest ih =>
      by_cases h : containsStr (toLowercase line) query
      · simp [sciLoop, h, ih]
      · simp [sciLoop, h, ih]

/-- `search` is the filter of the lines by containment of the query. -/
theorem search_eq_filter (query contents : Str) :
    search query contents =
      (rustLines contents).filter (fun l => containsStr l query) := by
  simpa using searchLoop_eq query (rustLines contents) []

/-- `search_case_insensitive` is the filter of the lines by containment of
the lowercased query in the lowercased line. -/
theorem sci_eq_filter (query contents : Str) :
    search_case_insensitive query contents =
      (rustLines contents).filter
        (fun l => containsStr (toLowercase l) (toLowercase query)) := by
  simpa using sciLoop_eq (toLowercase query) (rustLines contents) []

/-- Mapping a function over a string preserves substring containment. -/
theorem infix_of_infix_map (f : Char → Char) {q l : Str} (h : q <:+: l) :
    q.map f <:+: l.map f := by
  obtain ⟨s, t, rfl⟩ := h
  exact ⟨s.map f, t.map f, by simp⟩

/-- C1: `search(Q, C)` returns exactly the lines of `C` that contain `Q` as
a contiguous substring, in their original order: it equals the filter of
the lines by containment, it is a sublist (hence ordered subsequence) of
the lines, every returned line contains `Q`, and every line containing `Q`
is returned. -/
theorem search_exact (q c : Str) :
    search q c = (rustLines c).filter (fun l => containsStr l q) ∧
    (search q c).Sublist (rustLines c) ∧
    (∀ l ∈ search q c, q <:+: l) ∧
    (∀ l ∈ rustLines c, q <:+: l → l ∈ search q c) := by
  refine ⟨search_eq_filter q c, ?_, ?_, ?_⟩
  · rw [search_eq_filter]
    exact List.filter_sublist _
  · intro l hl
    rw [search_eq_filter, List.mem_filter] at hl
    exact of_decide_eq_true hl.2
  · intro l hl hq
    rw [search_eq_filter, List.mem_filter]
    exact ⟨hl, decide_eq_true hq⟩

/-- Closed instance of C1: on a concrete file, a line containing the query
is indeed returned by `search`. -/
theorem search_exact_w :
    "ab".toList ∈ search "b".toList "ab\ncd\n".toList :=
  (search_exact "b".toList "ab\ncd\n".toList).2.2.2 "ab".toList
    (by decide) (by decide)

/-- C2: `search_case_insensitive(Q, C)` returns exactly the lines of `C`
whose lowercased form contains the lowercased form of `Q`, in original
order, and each returned line is the original (non-lowercased) line of
`C`, being a sublist of `C`'s lines. -/
theorem sci_exact (q c : Str) :
    search_case_insensitive q c =
      (rustLines c).filter (fun l => containsStr (toLowercase l) (toLowercase q)) ∧
    (search_case_insensitive q c).Sublist (rustLines c) ∧
    (∀ l ∈ search_case_insensitive q c, toLowercase q <:+: toLowercase l) ∧
    (∀ l ∈ rustLines c, toLowercase q <:+: toLowercase l →
      l ∈ search_case_insensitive q c) := by
  refine ⟨sci_eq_filter q c, ?_, ?_, ?_⟩
  · rw [sci_eq_filter]
    exact List.filter_sublist _
  · intro l hl
    rw [sci_eq_filter, List.mem_filter] at hl
    exact of_decide_eq_true hl.2
  · intro l hl hq
    rw [sci_eq_filter, List.mem_filter]
    exact ⟨hl, decide_eq_true hq⟩

/-- Closed instance of C2: a line matching only after lowercasing is
returned, with its original text. -/
theorem sci_exact_w :
    "AB".toList ∈ search_case_insensitive "ab".toList "AB\ncd\n".toList :=
  (sci_exact "ab".toList "AB\ncd\n".toList).2.2.2 "AB".toList
    (by decide) (by decide)

/-- C3: with at least three arguments, building succeeds; the query is the
second argument, the file path the third, and `ignore_case` is true iff
the `IGNORE_CASE` variable is set (to any value, the empty string
included). -/
theorem build_ok (args : List Str) (env : Option Str) (h : 3 ≤ args.length) :
    Config.build args env =
      .ok { query := args.get ⟨1, by omega⟩,
            file_path := args.get ⟨2, by omega⟩,
            ignore_case := env.isSome } := by
  simp [Config.build, Nat.not_lt.mpr h]

/-- Closed instance of C3: three concrete arguments with `IGNORE_CASE` set
to the empty string build the expected configuration. -/
theorem build_ok_w :
    Config.build ["prog".toList, "needle".toList, "poem.txt".toList]
        (some ([] : Str)) =
      .ok { query := "needle".toList, file_path := "poem.txt".toList,
            ignore_case := true } :=
  build_ok ["prog".toList, "needle".toList, "poem.txt".toList]
    (some ([] : Str)) (by decide)

/-- C4: with fewer than three arguments, building fails with the missing
argument error instead of returning a configuration. -/
theorem build_missing (args : List Str) (env : Option Str)
    (h : args.length < 3) :
    Config.build args env = .error "not enough arguments" := by
  simp [Config.build, h]

/-- Closed instance of C4: building from no arguments fails. -/
theorem build_missing_w :
    Config.build [] none = .error "not enough arguments" :=
  build_missing [] none (by decide)

/-- C5 counterexample: when the file path is absent (program name plus a
query only), the error is the fixed string "not enough arguments" — it
does not identify "file path", and it is the very same error value
produced when the query is absent too, so the two failure cases are not
distinguishable by the caller. -/
theorem build_error_indistinct_cx :
    Config.build ["program".toList, "needle".toList] none =
      .error "not enough arguments" ∧
    Config.build ["program".toList] none = .error "not enough arguments" ∧
    Config.build ["program".toList, "needle".toList] none =
      Config.build ["program".toList] none := by
  exact ⟨rfl, rfl, rfl⟩

/-- C5 amended: whenever an argument is absent (fewer than three
arguments), building fails with the one fixed error "not enough
arguments", identical whether the query or the file path is the missing
one. -/
theorem build_error_uniform (env : Option Str) (a b : Str) :
    Config.build [a] env = .error "not enough arguments" ∧
    Config.build [a, b] env = .error "not enough arguments" ∧
    Config.build [a] env = Config.build [a, b] env := by
  exact ⟨rfl, rfl, rfl⟩

/-- C6: the empty query matches every line for both search functions;
empty contents yield an empty result; and when no line matches, the
result is the empty list (both functions are total, so no error value
exists). -/
theorem search_edge_cases (q c : Str) :
    search [] c = rustLines c ∧
    search_case_insensitive [] c = rustLines c ∧
    search q [] = [] ∧
    search_case_insensitive q [] = [] ∧
    ((∀ l ∈ rustLines c, containsStr l q = false) → search q c = []) ∧
    ((∀ l ∈ rustLines c, containsStr (toLowercase l) (toLowercase q) = false) →
      search_case_insensitive q c = []) := by
  refine ⟨?_, ?_, ?_, ?_, ?_, ?_⟩
  · rw [search_eq_filter]
    exact List.filter_eq_self.mpr fun l _ => by
      simp [containsStr, List.nil_infix]
  · rw [sci_eq_filter]
    exact List.filter_eq_self.mpr fun l _ => by
      simp [containsStr, toLowercase, toLowercaseAux, List.nil_infix]
  · rw [search_eq_filter]; rfl
  · rw [sci_eq_filter]; rfl
  · intro hnone
    rw [search_eq_filter]
    exact List.filter_eq_nil_iff.mpr fun l hl => by simp [hnone l hl]
  · intro hnone
    rw [sci_eq_filter]
    exact List.filter_eq_nil_iff.mpr fun l hl => by simp [hnone l hl]

/-- Closed instance of C6: a query matching no line of a concrete file
yields the empty result. -/
theorem search_edge_cases_w :
    search "zz".toList "ab\ncd\n".toList = [] :=
  (search_edge_cases "zz".toList "ab\ncd\n".toList).2.2.2.2.1 (by decide)

/-- C7: both search functions are pure: two calls on identical inputs
yield identical results, and — the functions being maps from their inputs
with no state — the inputs are unchanged by the call. -/
theorem search_deterministic (q c : Str) :
    search q c = search q c ∧
    search_case_insensitive q c = search_case_insensitive q c :=
  ⟨rfl, rfl⟩

/-- C8: the spec's concrete scenarios: `search "fast"` returns the one
matching line, `search "slow"` returns nothing, and
`search_case_insensitive "is"` returns both case-variant matches in file
order. -/
theorem search_scenarios :
    search "fast".toList
        "Rust is fast,\nand memory-efficient.\nwith zero-cost abstractions.\n".toList =
      ["Rust is fast,".toList] ∧
    search "slow".toList
        "Rust is fast,\nand memory-efficient.\nwith zero-cost abstractions.\n".toList =
      [] ∧
    search_case_insensitive "is".toList
        "Rust is fast,\nand memory-efficient.\nIt IS amazing.\n".toList =
      ["Rust is fast,".toList, "It IS amazing.".toList] := by
  refine ⟨?_, ?_, ?_⟩ <;> decide

/-- C9: `Config.build` is total — every argument list yields either a
configuration or the missing-argument error, never an out-of-bounds
failure — and arguments beyond the third are ignored: building from the
full list equals building from its first three elements. -/
theorem build_total (args : List Str) (env : Option Str) :
    ((∃ cfg, Config.build args env = .ok cfg) ∨
      Config.build args env = .error "not enough arguments") ∧
    (3 ≤ args.length → Config.build args env = Config.build (args.take 3) env) := by
  constructor
  · by_cases h : args.length < 3
    · exact .inr (by simp [Config.build, h])
    · exact .inl ⟨{ query := args.get ⟨1, by omega⟩,
                    file_path := args.get ⟨2, by omega⟩,
                    ignore_case := env.isSome }, by simp [Config.build, h]⟩
  · intro h
    have h3 : ¬ args.length < 3 := by omega
    have ht : ¬ (args.take 3).length < 3 := by
      simp [List.length_take]; omega
    simp [Config.build, h3, ht]

/-- Closed instance of C9: a fourth argument is ignored. -/
theorem build_total_w :
    Config.build ["p".toList, "q".toList, "f".toList, "extra".toList] none =
      Config.build ["p".toList, "q".toList, "f".toList] none :=
  (build_total ["p".toList, "q".toList, "f".toList, "extra".toList]
    none).2 (by decide)

/-- `splitOnNl` never returns the empty list of pieces. -/
theorem splitOnNl_ne_nil (s : Str) : splitOnNl s ≠ [] := by
  cases s with
  | nil => simp [splitOnNl]
  | cons c rest =>
      by_cases hc : c = '\n'
      · simp [splitOnNl, hc]
      · cases hsr : splitOnNl rest with
        | nil => simp [splitOnNl, hc, hsr]
        | cons p ps => simp [splitOnNl, hc, hsr]

/-- Every character of a piece produced by `splitOnNl` is a character of
the split string. -/
theorem splitOnNl_subset (s : Str) : ∀ p ∈ splitOnNl s, ∀ ch ∈ p, ch ∈ s := by
  induction s with
  | nil =>
      intro p hp ch hch
      simp [splitOnNl] at hp
      subst hp
      simp at hch
  | cons c rest ih =>
      intro p hp ch hch
      by_cases hc : c = '\n'
      · rw [show splitOnNl (c :: rest) = [] :: splitOnNl rest by
          simp [splitOnNl, hc]] at hp
        rcases List.mem_cons.mp hp with h0 | h0
        · subst h0; simp at hch
        · exact List.mem_cons_of_mem c (ih p h0 ch hch)
      · cases hsr : splitOnNl rest with
        | nil => exact absurd hsr (splitOnNl_ne_nil rest)
        | cons p0 ps =>
            rw [show splitOnNl (c :: rest) = (c :: p0) :: ps by
              simp [splitOnNl, hc, hsr]] at hp
            rcases List.mem_cons.mp hp with h0 | h0
            · subst h0
              rcases List.mem_cons.mp hch with h1 | h1
              · rw [h1]; exact List.mem_cons_self c rest
              · exact List.mem_cons_of_mem c
                  (ih p0 (by rw [hsr]; exact List.mem_cons_self p0 ps) ch h1)
            · exact List.mem_cons_of_mem c
                (ih p (by rw [hsr]; exact List.mem_cons_of_mem p0 h0) ch hch)

/-- `stripCr` only removes a character, so its characters come from its
argument. -/
theorem stripCr_subset (l : Str) : ∀ ch ∈ stripCr l, ch ∈ l := by
  intro ch hch
  unfold stripCr at hch
  split at hch
  · exact List.dropLast_subset l hch
  · exact hch

/-- Every character of a line of `rustLines s` is a character of `s`. -/
theorem rustLines_subset (s : Str) : ∀ l ∈ rustLines s, ∀ ch ∈ l, ch ∈ s := by
  intro l hl ch hch
  simp only [rustLines] at hl
  cases hg : (splitOnNl s).getLast? with
  | none => rw [hg] at hl; simp at hl
  | some lastPart =>
      rw [hg] at hl
      simp only [List.mem_append] at hl
      rcases hl with h0 | h0
      · rcases List.mem_map.mp h0 with ⟨p, hp, rfl⟩
        exact splitOnNl_subset s p (List.dropLast_subset _ hp) ch
          (stripCr_subset p ch hch)
      · by_cases he : lastPart = []
        · simp [he] at h0
        · simp only [he, if_neg, List.mem_singleton] at h0
          have h0 : l = lastPart := by simpa [he] using h0
          subst h0
          exact splitOnNl_subset s l (List.mem_of_getLast?_eq_some hg) ch hch

/-- On strings without a capital sigma, `toLowercase` is the character-wise
simple lowercase map, whatever prefix precedes them. -/
theorem toLowercaseAux_eq_map (s : Str) :
    'Σ' ∉ s → ∀ prev, toLowercaseAux prev s = s.map lowerSimple := by
  induction s with
  | nil => intro _ _; rfl
  | cons c rest ih =>
      intro h prev
      have hc : ¬ c = 'Σ' := by
        rintro rfl; exact h (List.mem_cons_self _ _)
      have hr : 'Σ' ∉ rest := fun e => h (List.mem_cons_of_mem c e)
      simp [toLowercaseAux, hc, ih hr]

/-- `toLowercase` on a sigma-free string is the simple lowercase map. -/
theorem toLowercase_eq_map (s : Str) (h : 'Σ' ∉ s) :
    toLowercase s = s.map lowerSimple :=
  toLowercaseAux_eq_map s h []

/-- Filtering the same list by a predicate that is implied, on the list's
members, by another yields a sublist of the other filter. -/
theorem filter_sublist_filter_of_mem {α : Type _} {p q : α → Bool} :
    ∀ (l : List α), (∀ a ∈ l, p a = true → q a = true) →
      (l.filter p).Sublist (l.filter q) := by
  intro l
  induction l with
  | nil => intro _; simp
  | cons a l ih =>
      intro h
      by_cases hp : p a
      · rw [List.filter_cons_of_pos hp,
          List.filter_cons_of_pos (h a (List.mem_cons_self a l) hp)]
        exact (ih fun b hb => h b (List.mem_cons_of_mem a hb)).cons_cons a
      · rw [List.filter_cons_of_neg hp]
        by_cases hq : q a
        · rw [List.filter_cons_of_pos hq]
          exact List.sublist_cons_of_sublist a
            (ih fun b hb => h b (List.mem_cons_of_mem a hb))
        · rw [List.filter_cons_of_neg hq]
          exact ih fun b hb => h b (List.mem_cons_of_mem a hb)

/-- C10 counterexample: for query `"Σ"` and contents `"ΑΣ"`, the capital
sigma matches exactly, but lowercasing turns the query's sigma into `"σ"`
(not word-final) while the line's word-final sigma becomes `"ς"`, so the
case-insensitive search misses the line: the case-sensitive result is not
a sublist of the case-insensitive one. -/
theorem search_sublist_sci_cx :
    search "Σ".toList "ΑΣ".toList = ["ΑΣ".toList] ∧
    search_case_insensitive "Σ".toList "ΑΣ".toList = [] ∧
    ¬ (search "Σ".toList "ΑΣ".toList).Sublist
        (search_case_insensitive "Σ".toList "ΑΣ".toList) := by
  have h1 : search "Σ".toList "ΑΣ".toList = ["ΑΣ".toList] := by decide
  have h2 : search_case_insensitive "Σ".toList "ΑΣ".toList = [] := by decide
  refine ⟨h1, h2, fun hs => ?_⟩
  rw [h1, h2] at hs
  exact absurd (List.sublist_nil.mp hs) (by decide)

/-- C10 amended: for contents containing no capital sigma (the one
character Rust lowercases context-sensitively), every line returned by the
case-sensitive `search` is also returned by `search_case_insensitive`, in
the same relative order: the former's result is a sublist of the
latter's. -/
theorem search_sublist_sci_nosigma (q c : Str) (h : 'Σ' ∉ c) :
    (search q c).Sublist (search_case_insensitive q c) := by
  rw [search_eq_filter, sci_eq_filter]
  apply filter_sublist_filter_of_mem
  intro l hl hp
  have hq : q <:+: l := of_decide_eq_true hp
  have hlns : 'Σ' ∉ l := fun hx => h (rustLines_subset c l hl 'Σ' hx)
  have hqns : 'Σ' ∉ q := fun hx => hlns ((List.IsInfix.sublist hq).subset hx)
  simp only [containsStr, decide_eq_true_eq]
  rw [toLowercase_eq_map l hlns, toLowercase_eq_map q hqns]
  exact infix_of_infix_map lowerSimple hq

/-- Closed instance of the amended C10: on sigma-free concrete contents
the case-sensitive matches are among the case-insensitive ones. -/
theorem search_sublist_sci_nosigma_w :
    (search "ab".toList "AB\nab\n".toList).Sublist
      (search_case_insensitive "ab".toList "AB\nab\n".toList) :=
  search_sublist_sci_nosigma "ab".toList "AB\nab\n".toList (by decide)
